import Mathlib

/-!
Range get over a sliced B-tree store (`btree/rget.cc`).

A shallow embedding of `btree_rget`, `rget_value_provider_t::create_provider` and
`rget_large_value_provider_t::~rget_large_value_provider_t`.

* Heap objects are identified by their allocation index ("address").
* `uint64_t max_results` and `size_t size()` are natural numbers; no arithmetic is done on
  them, only the comparison `size() == max_results`, so every statement proved for all
  naturals covers the 64-bit range.
* A C++ exception leaving `merge_iterator.next()` is the `raise` outcome of a pull; it stands
  for a lock failure of a slice as well as for the duplicate-key error of the merge.
-/

namespace Rget

/-! ## Data model -/

/-- Access mode of a transaction; `btree_rget` passes `rwi_read`. -/
inductive access_t
  | rwi_read
  | rwi_write
  deriving DecidableEq

/-- A `transactor_t` object: `transactor_t(&slice->cache, rwi_read)` records the cache it was
opened on (caches are named by a number) and the access mode. -/
structure transactor_t where
  cache : Nat
  access : access_t
  deriving DecidableEq

/-- The item type of the iterators: a key and the provider of its value. The payload type is
left open, `btree_rget` never inspects it. -/
structure key_with_data_provider_t (κ δ : Type) where
  key : κ
  value_provider : δ
  deriving DecidableEq

/-- The comparator `key_with_data_provider_t::less` handed to the merge iterator: order by
key. -/
def key_with_data_provider_t.less {κ δ : Type} [LinearOrder κ]
    (a b : key_with_data_provider_t κ δ) : Bool :=
  decide (a.key < b.key)

/-- A `btree_slice_t`: its cache and the key/value pairs of its leaves in traversal order. -/
structure btree_slice_t (κ δ : Type) where
  cache : Nat
  leaves : List (key_with_data_provider_t κ δ)
  deriving DecidableEq

/-- The store: `slices[0 .. n_slices)`, the part of the slice array that the loop of
`btree_rget` reads. -/
structure btree_key_value_store_t (κ δ : Type) where
  slices : List (btree_slice_t κ δ)
  deriving DecidableEq

/-- The field `btree_static_config.n_slices`. -/
def btree_key_value_store_t.n_slices {κ δ : Type} (store : btree_key_value_store_t κ δ) : Nat :=
  store.slices.length

/-- Modelled from the spec: membership of a key in the range `start`, `end`, `left_open`,
`right_open` (the range test lives in `btree/iteration.cc`, which is not among the sources).
A null bound pointer is an absent bound; `left_open` excludes `start`, `right_open`
excludes `end`. -/
def in_range {κ : Type} [LinearOrder κ] (start end_ : Option κ) (left_open right_open : Bool)
    (k : κ) : Bool :=
  (match start with
    | none => true
    | some s => if left_open then decide (s < k) else decide (s ≤ k)) &&
  (match end_ with
    | none => true
    | some e => if right_open then decide (k < e) else decide (k ≤ e))

/-- Modelled from the spec: the in-range, in-order output of one slice, "exactly the keys in
the shard that fall within the range" in traversal order (`slice_keys_iterator_t` is declared
in `btree/iteration.hpp`, which is not among the sources). -/
def slice_output {κ δ : Type} [LinearOrder κ] (slice : btree_slice_t κ δ)
    (start end_ : Option κ) (left_open right_open : Bool) :
    List (key_with_data_provider_t κ δ) :=
  slice.leaves.filter (fun kv => in_range start end_ left_open right_open kv.key)

/-- Outcome of one call of `next()`: an item, `boost::none`, or an exception. -/
inductive pull_t (α : Type)
  | item (a : α)
  | done
  | raise
  deriving DecidableEq

/-- Modelled from the spec: the lock manager behind the caches, an external collaborator. For a
cache it tells after how many granted pulls a node lock fails; `none` means every lock is
granted. -/
abbrev lock_manager_t := Nat → Option Nat

/-- The lock manager that grants every lock. -/
def no_lock_failure : lock_manager_t := fun _ => none

/-- Modelled from the spec: a `slice_keys_iterator_t` object (`btree/iteration.hpp` is not
among the sources). It keeps its constructor arguments; `pending` is what it will still
yield and `fails` tells whether a lock failure follows the pending items. -/
structure slice_keys_iterator_t (κ δ : Type) where
  transactor : Nat
  slice : btree_slice_t κ δ
  start : Option κ
  end_ : Option κ
  left_open : Bool
  right_open : Bool
  pending : List (key_with_data_provider_t κ δ)
  fails : Bool
  deriving DecidableEq

/-- Modelled from the spec: the constructor
`slice_keys_iterator_t(transactor, slice, start, end, left_open, right_open)`. -/
def slice_keys_iterator_t.create {κ δ : Type} [LinearOrder κ] (locks : lock_manager_t)
    (transactor : Nat) (slice : btree_slice_t κ δ) (start end_ : Option κ)
    (left_open right_open : Bool) : slice_keys_iterator_t κ δ :=
  match locks slice.cache with
  | none =>
    ⟨transactor, slice, start, end_, left_open, right_open,
      slice_output slice start end_ left_open right_open, false⟩
  | some granted =>
    ⟨transactor, slice, start, end_, left_open, right_open,
      (slice_output slice start end_ left_open right_open).take granted, true⟩

/-- Modelled from the spec: `slice_keys_iterator_t::next()`, a forward-only pull. -/
def slice_keys_iterator_t.next {κ δ : Type} (it : slice_keys_iterator_t κ δ) :
    pull_t (key_with_data_provider_t κ δ) × slice_keys_iterator_t κ δ :=
  match it.pending with
  | a :: rest => (pull_t.item a, { it with pending := rest })
  | [] => (if it.fails then pull_t.raise else pull_t.done, it)

/-- Modelled from the spec: one input of the merge (`containers/iterators.hpp` is not among
the sources), the mergee and the item buffered from it, if any. -/
structure merge_slot_t (κ δ : Type) where
  mergee : slice_keys_iterator_t κ δ
  head : Option (key_with_data_provider_t κ δ)
  deriving DecidableEq

/-- Modelled from the spec: the state of a
`merge_ordered_data_iterator_t<key_with_data_provider_t, key_with_data_provider_t::less>`
(`containers/iterators.hpp` is not among the sources): "one current head item per
non-exhausted input". -/
structure merge_ordered_data_iterator_t (κ δ : Type) where
  slots : List (merge_slot_t κ δ)
  deriving DecidableEq

/-- Modelled from the spec: the first half of `merge_ordered_data_iterator_t::next()`
(`containers/iterators.hpp` is not among the sources). Heads are "pulled on demand, not
eagerly": every input without a buffered head is pulled once; an exception of a mergee
propagates (`none`). -/
def refill {κ δ : Type} : List (merge_slot_t κ δ) → Option (List (merge_slot_t κ δ))
  | [] => some []
  | s :: rest =>
    match s.head with
    | some _ => (refill rest).map (fun filled => s :: filled)
    | none =>
      match s.mergee.next with
      | (pull_t.item a, it) => (refill rest).map (fun filled => ⟨it, some a⟩ :: filled)
      | (pull_t.done, it) => (refill rest).map (fun filled => ⟨it, none⟩ :: filled)
      | (pull_t.raise, _) => none

/-- Modelled from the spec: what the comparison of the current heads finds
(`containers/iterators.hpp` is not among the sources): no head at all, a least head together
with the slots it leaves behind, or a tie, two inputs offering the same least key. -/
inductive selection_t (κ δ : Type)
  | exhausted
  | least (a : key_with_data_provider_t κ δ) (slots : List (merge_slot_t κ δ))
  | tie (a : key_with_data_provider_t κ δ)
  deriving DecidableEq

/-- Modelled from the spec: the second half of `merge_ordered_data_iterator_t::next()`
(`containers/iterators.hpp` is not among the sources): "compare all current heads by Key,
select the minimum, emit it, and advance only that one input". The selected head leaves its
slot, so that input alone is pulled at the following step. A tie for the minimum between two
inputs is not resolved: "if a tie is observed it is a data-integrity violation and must be
reported as an error rather than silently resolved". Equal heads that are not the least are
left to the step at which they become the least. -/
def select {κ δ : Type} [LinearOrder κ] : List (merge_slot_t κ δ) → selection_t κ δ
  | [] => selection_t.exhausted
  | s :: rest =>
    match s.head, select rest with
    | none, selection_t.exhausted => selection_t.exhausted
    | none, selection_t.least b rest1 => selection_t.least b (s :: rest1)
    | none, selection_t.tie b => selection_t.tie b
    | some a, selection_t.exhausted => selection_t.least a ({ s with head := none } :: rest)
    | some a, selection_t.least b rest1 =>
      if b.less a then selection_t.least b (s :: rest1)
      else if a.less b then selection_t.least a ({ s with head := none } :: rest)
      else selection_t.tie a
    | some a, selection_t.tie b =>
      if b.less a then selection_t.tie b
      else if a.less b then selection_t.least a ({ s with head := none } :: rest)
      else selection_t.tie a

/-- Modelled from the spec: `merge_ordered_data_iterator_t::next()`
(`containers/iterators.hpp` is not among the sources): fill the missing heads, then emit the
least one. An exception of a mergee propagates, and a tie for the least key is the fatal
duplicate-key error, raised to the caller. -/
def merge_ordered_data_iterator_t.next {κ δ : Type} [LinearOrder κ]
    (m : merge_ordered_data_iterator_t κ δ) :
    pull_t (key_with_data_provider_t κ δ) × merge_ordered_data_iterator_t κ δ :=
  match refill m.slots with
  | none => (pull_t.raise, m)
  | some filled =>
    match select filled with
    | selection_t.exhausted => (pull_t.done, ⟨filled⟩)
    | selection_t.least a slots => (pull_t.item a, ⟨slots⟩)
    | selection_t.tie _ => (pull_t.raise, ⟨filled⟩)

/-- What one slot still holds: its buffered head followed by what its mergee will yield. -/
def merge_slot_t.stream {κ δ : Type} (s : merge_slot_t κ δ) :
    List (key_with_data_provider_t κ δ) :=
  s.head.toList ++ s.mergee.pending

/-- Number of items the merge iterator still holds, a bound on the pulls that yield an item. -/
def merge_ordered_data_iterator_t.size {κ δ : Type} (m : merge_ordered_data_iterator_t κ δ) :
    Nat :=
  ((m.slots.map merge_slot_t.stream).map List.length).sum

/-- Modelled from the spec: the constructor `merge_ordered_data_iterator_t(ms)`. The mergee
pointers of `ms` are dereferenced in the iterator heap; nothing is pulled yet. -/
def merge_ordered_data_iterator_t.create {κ δ : Type}
    (iterator_heap : List (slice_keys_iterator_t κ δ)) (ms : List Nat) :
    merge_ordered_data_iterator_t κ δ :=
  ⟨ms.filterMap (fun p => (iterator_heap.get? p).map (fun it => ⟨it, none⟩))⟩

/-- The merged stream: the items that successive calls of `next()` yield until one yields
none or raises. -/
def merge_ordered_data_iterator_t.to_list {κ δ : Type} [LinearOrder κ] :
    Nat → merge_ordered_data_iterator_t κ δ → List (key_with_data_provider_t κ δ)
  | 0, _ => []
  | fuel + 1, m =>
    match m.next with
    | (pull_t.item a, m1) => a :: to_list fuel m1
    | _ => []

/-! ## `btree_rget` -/

/-- How control leaves `btree_rget`: by `return result`, by an exception that propagates to
the caller, or not within the pulls allotted to the model (shown never to happen). -/
inductive exit_t
  | returned
  | raised
  | unfinished
  deriving DecidableEq

/-- Locals and heap after the first loop of `btree_rget`. -/
structure rget_setup_t (κ δ : Type) where
  transactor_heap : List transactor_t
  iterator_heap : List (slice_keys_iterator_t κ δ)
  transactors : List Nat
  ms : List Nat
  deriving DecidableEq

/-- The loop `for (int s = 0; s < n_slices; s++)`: for each slice in turn a new read
transactor on the cache of the slice, pushed on `transactors`, and a new slice iterator
given that transactor, the slice and the range, pushed on `ms`. -/
def open_slices {κ δ : Type} [LinearOrder κ] (locks : lock_manager_t) (start end_ : Option κ)
    (left_open right_open : Bool) :
    List (btree_slice_t κ δ) → rget_setup_t κ δ → rget_setup_t κ δ
  | [], st => st
  | slice :: rest, st =>
    let transactor := st.transactor_heap.length
    let it := st.iterator_heap.length
    open_slices locks start end_ left_open right_open rest
      { transactor_heap := st.transactor_heap ++ [⟨slice.cache, access_t.rwi_read⟩],
        transactors := st.transactors ++ [transactor],
        iterator_heap := st.iterator_heap ++
          [slice_keys_iterator_t.create locks transactor slice start end_ left_open right_open],
        ms := st.ms ++ [it] }

/-- The loop `while (pair = merge_iterator.next())` with its `push_back` and the test
`result.results.size() == max_results` after the push. -/
def drain {κ δ : Type} [LinearOrder κ] (max_results : Nat) :
    Nat → merge_ordered_data_iterator_t κ δ → List (key_with_data_provider_t κ δ) →
      exit_t × List (key_with_data_provider_t κ δ)
  | 0, _, results => (exit_t.unfinished, results)
  | fuel + 1, merge_iterator, results =>
    match merge_iterator.next with
    | (pull_t.done, _) => (exit_t.returned, results)
    | (pull_t.raise, _) => (exit_t.raised, results)
    | (pull_t.item pair, merge_iterator1) =>
      if (results ++ [pair]).length = max_results then (exit_t.returned, results ++ [pair])
      else drain max_results fuel merge_iterator1 (results ++ [pair])

/-- The loop `while (!ms.empty()) { delete ms.back(); ms.pop_back(); }`; `deleted` logs the
addresses passed to `delete`. -/
def teardown : Nat → List Nat → List Nat → List Nat × List Nat
  | 0, ms, deleted => (ms, deleted)
  | fuel + 1, ms, deleted =>
    match ms.getLast? with
    | none => (ms, deleted)
    | some back => teardown fuel ms.dropLast (deleted ++ [back])

/-- State when control leaves `btree_rget`: `results` is `result.results`, the two heaps hold
every transactor and every slice iterator that was constructed (iterators as constructed),
`transactors` and `ms` are the two local vectors, `deleted` the addresses of the iterators
passed to `delete`, in order. -/
structure rget_frame_t (κ δ : Type) where
  exit : exit_t
  results : List (key_with_data_provider_t κ δ)
  transactor_heap : List transactor_t
  iterator_heap : List (slice_keys_iterator_t κ δ)
  transactors : List Nat
  ms : List Nat
  deleted : List Nat
  deriving DecidableEq

/-- The function `btree_rget(store, start, end, left_open, right_open, max_results)`, run
against a lock manager. The teardown loop stands after the drain loop and is reached only
when the drain loop is left normally; an exception out of `merge_iterator.next()` unwinds the
frame, which destroys the vector `ms` of raw pointers without deleting what they point to. -/
def btree_rget {κ δ : Type} [LinearOrder κ] (locks : lock_manager_t)
    (store : btree_key_value_store_t κ δ) (start end_ : Option κ)
    (left_open right_open : Bool) (max_results : Nat) : rget_frame_t κ δ :=
  let st := open_slices locks start end_ left_open right_open store.slices ⟨[], [], [], []⟩
  let merge_iterator := merge_ordered_data_iterator_t.create st.iterator_heap st.ms
  match drain max_results (merge_iterator.size + 1) merge_iterator [] with
  | (exit_t.returned, results) =>
    let torn := teardown st.ms.length st.ms []
    ⟨exit_t.returned, results, st.transactor_heap, st.iterator_heap, st.transactors,
      torn.1, torn.2⟩
  | (exit, results) =>
    ⟨exit, results, st.transactor_heap, st.iterator_heap, st.transactors, st.ms, []⟩

/-- The merged stream of all slice iterators of a scan: what the merge iterator built by
`btree_rget` yields when pulled until it yields none or raises. -/
def merged_stream {κ δ : Type} [LinearOrder κ] (locks : lock_manager_t)
    (store : btree_key_value_store_t κ δ) (start end_ : Option κ)
    (left_open right_open : Bool) : List (key_with_data_provider_t κ δ) :=
  let st := open_slices locks start end_ left_open right_open store.slices ⟨[], [], [], []⟩
  let merge_iterator := merge_ordered_data_iterator_t.create st.iterator_heap st.ms
  merge_ordered_data_iterator_t.to_list (merge_iterator.size + 1) merge_iterator

/-! ## Reference definitions on the side of the specification -/

/-- Order on items by key, the non-strict companion of `less`. -/
def key_le {κ δ : Type} [LinearOrder κ] (a b : key_with_data_provider_t κ δ) : Bool :=
  decide (a.key ≤ b.key)

/-- Specification side: the merge of several output sequences that share no key, the two-way
merge of the library folded over them. It is used under the hypothesis that no key occurs
in two of the sequences, where no tie can arise. -/
def merge_of_outputs {κ δ : Type} [LinearOrder κ]
    (outputs : List (List (key_with_data_provider_t κ δ))) :
    List (key_with_data_provider_t κ δ) :=
  outputs.foldr (fun out merged => List.merge out merged key_le) []

/-- Specification side: the output of every slice of the store for a range. -/
def slice_outputs {κ δ : Type} [LinearOrder κ] (store : btree_key_value_store_t κ δ)
    (start end_ : Option κ) (left_open right_open : Bool) :
    List (List (key_with_data_provider_t κ δ)) :=
  store.slices.map (fun slice => slice_output slice start end_ left_open right_open)

/-- Specification side: the true total number of in-range items across all slices. -/
def total_in_range {κ δ : Type} [LinearOrder κ] (store : btree_key_value_store_t κ δ)
    (start end_ : Option κ) (left_open right_open : Bool) : Nat :=
  ((slice_outputs store start end_ left_open right_open).map List.length).sum

/-! ## Value providers -/

/-- Modelled from the spec: a raw `btree_value` (`btree/node.hpp` is not among the sources);
`large` is what `is_large()` reads. -/
structure btree_value where
  large : Bool
  contents : List Nat
  deriving DecidableEq

/-- The test `value->is_large()`. -/
def btree_value.is_large (value : btree_value) : Bool :=
  value.large

/-- State of an `rget_large_value_provider_t`: `large_value` is the nullable pointer to the
large-value handle (handles are named by a number), `buffers` the materialised data, absent
while the value was never materialised. -/
structure rget_large_value_provider_t where
  value : btree_value
  transactor : Nat
  large_value : Option Nat
  buffers : Option (List Nat)
  deriving DecidableEq

/-- State of an `rget_small_value_provider_t`, which holds the value only. -/
structure rget_small_value_provider_t where
  value : btree_value
  deriving DecidableEq

/-- The two variants of `rget_value_provider_t`. -/
inductive rget_value_provider_t
  | small (p : rget_small_value_provider_t)
  | large (p : rget_large_value_provider_t)
  deriving DecidableEq

/-- The factory `rget_value_provider_t::create_provider(value, transactor)`. The two
constructors are defined outside `rget.cc` and are taken as parameters, each with the
arguments the source passes to it. -/
def rget_value_provider_t.create_provider
    (small_ctor : btree_value → rget_small_value_provider_t)
    (large_ctor : btree_value → Nat → rget_large_value_provider_t)
    (value : btree_value) (transactor : Nat) : rget_value_provider_t :=
  if value.is_large then rget_value_provider_t.large (large_ctor value transactor)
  else rget_value_provider_t.small (small_ctor value)

/-- The destructor `~rget_large_value_provider_t()`: `if (large_value) large_value->release()`.
The log `released` lists the handles on which `release()` was called. -/
def rget_large_value_provider_t.destroy (p : rget_large_value_provider_t)
    (released : List Nat) : List Nat :=
  match p.large_value with
  | some handle => released ++ [handle]
  | none => released

/-! ## Concrete scans -/

/-- Slice A of the scenario: keys 1, 3, 5 on cache 0. -/
def slice_a : btree_slice_t Nat Unit :=
  ⟨0, [⟨1, ()⟩, ⟨3, ()⟩, ⟨5, ()⟩]⟩

/-- Slice B of the scenario: keys 2, 4, 6 on cache 1. -/
def slice_b : btree_slice_t Nat Unit :=
  ⟨1, [⟨2, ()⟩, ⟨4, ()⟩, ⟨6, ()⟩]⟩

/-- The two-slice store of the scenario. -/
def store_ab : btree_key_value_store_t Nat Unit :=
  ⟨[slice_a, slice_b]⟩

/-- A store of one slice holding the single key 1. -/
def store_one : btree_key_value_store_t Nat Unit :=
  ⟨[⟨0, [⟨1, ()⟩]⟩]⟩

/-- A store of two slices that both hold the key 1. -/
def store_dup : btree_key_value_store_t Nat Unit :=
  ⟨[⟨0, [⟨1, ()⟩]⟩, ⟨1, [⟨1, ()⟩]⟩]⟩

/-- The lock manager that fails the first pull on cache 1 and grants everything else. -/
def fail_cache_one : lock_manager_t := fun cache => if cache = 1 then some 0 else none

/-! ## The first loop: transactors and slice iterators -/

theorem open_slices_transactor_heap {κ δ : Type} [LinearOrder κ] (locks : lock_manager_t)
    (start end_ : Option κ) (left_open right_open : Bool) (slices : List (btree_slice_t κ δ))
    (st : rget_setup_t κ δ) :
    (open_slices locks start end_ left_open right_open slices st).transactor_heap =
      st.transactor_heap ++
        slices.map (fun slice => (⟨slice.cache, access_t.rwi_read⟩ : transactor_t)) := by
  induction slices generalizing st with
  | nil => simp [open_slices]
  | cons slice rest ih => simp [open_slices, ih]

theorem open_slices_transactors {κ δ : Type} [LinearOrder κ] (locks : lock_manager_t)
    (start end_ : Option κ) (left_open right_open : Bool) (slices : List (btree_slice_t κ δ))
    (st : rget_setup_t κ δ) :
    (open_slices locks start end_ left_open right_open slices st).transactors =
      st.transactors ++ List.range' st.transactor_heap.length slices.length := by
  induction slices generalizing st with
  | nil => simp [open_slices]
  | cons slice rest ih => simp [open_slices, ih, List.range'_succ]

theorem open_slices_ms {κ δ : Type} [LinearOrder κ] (locks : lock_manager_t)
    (start end_ : Option κ) (left_open right_open : Bool) (slices : List (btree_slice_t κ δ))
    (st : rget_setup_t κ δ) :
    (open_slices locks start end_ left_open right_open slices st).ms =
      st.ms ++ List.range' st.iterator_heap.length slices.length := by
  induction slices generalizing st with
  | nil => simp [open_slices]
  | cons slice rest ih => simp [open_slices, ih, List.range'_succ]

theorem open_slices_iterator_heap {κ δ : Type} [LinearOrder κ] (locks : lock_manager_t)
    (start end_ : Option κ) (left_open right_open : Bool) (slices : List (btree_slice_t κ δ))
    (st : rget_setup_t κ δ) :
    (open_slices locks start end_ left_open right_open slices st).iterator_heap =
      st.iterator_heap ++
        (slices.enumFrom st.transactor_heap.length).map (fun p =>
          slice_keys_iterator_t.create locks p.1 p.2 start end_ left_open right_open) := by
  induction slices generalizing st with
  | nil => simp [open_slices]
  | cons slice rest ih => simp [open_slices, ih, List.enumFrom]

/-- Dereferencing the addresses that follow a heap segment gives back the objects stored
there. -/
theorem filterMap_get_range {α β : Type} (f : α → β) (before heap : List α) :
    (List.range' before.length heap.length).filterMap
        (fun p => ((before ++ heap).get? p).map f) = heap.map f := by
  induction heap generalizing before with
  | nil => simp
  | cons a rest ih =>
    have h := ih (before ++ [a])
    simp only [List.length_append, List.length_singleton, List.append_assoc,
      List.singleton_append, List.get?_eq_getElem?] at h
    have ha : (before ++ a :: rest)[before.length]? = some a := by
      rw [List.getElem?_append_right (Nat.le_refl _)]
      simp
    simp [List.range'_succ, h, ha]

/-! ## The teardown loop -/

theorem teardown_eq (fuel : Nat) (ms deleted : List Nat) (h : ms.length ≤ fuel) :
    teardown fuel ms deleted = ([], deleted ++ ms.reverse) := by
  induction fuel generalizing ms deleted with
  | zero =>
    have : ms = [] := List.length_eq_zero.mp (Nat.le_zero.mp h)
    subst this
    simp [teardown]
  | succ fuel ih =>
    rcases List.eq_nil_or_concat ms with rfl | ⟨front, back, rfl⟩
    · simp [teardown]
    · have hlen : front.length ≤ fuel := by simpa using h
      simp [teardown, ih front (deleted ++ [back]) hlen]

/-! ## The merge iterator against the reference merge -/

theorem merge_of_outputs_cons {κ δ : Type} [LinearOrder κ]
    (out : List (key_with_data_provider_t κ δ))
    (outputs : List (List (key_with_data_provider_t κ δ))) :
    merge_of_outputs (out :: outputs) = List.merge out (merge_of_outputs outputs) key_le := by
  simp [merge_of_outputs]

theorem length_merge_of_outputs {κ δ : Type} [LinearOrder κ]
    (outputs : List (List (key_with_data_provider_t κ δ))) :
    (merge_of_outputs outputs).length = (outputs.map List.length).sum := by
  induction outputs with
  | nil => simp [merge_of_outputs]
  | cons out rest ih => simp [merge_of_outputs_cons, ih]

theorem merge_of_outputs_perm {κ δ : Type} [LinearOrder κ]
    (outputs : List (List (key_with_data_provider_t κ δ))) :
    (merge_of_outputs outputs).Perm outputs.flatten := by
  induction outputs with
  | nil => simp [merge_of_outputs]
  | cons out rest ih =>
    rw [merge_of_outputs_cons, List.flatten_cons]
    exact (List.merge_perm_append key_le).trans (List.Perm.append_left out ih)

theorem merge_of_outputs_all_nil {κ δ : Type} [LinearOrder κ]
    (outputs : List (List (key_with_data_provider_t κ δ)))
    (h : ∀ out ∈ outputs, out = []) : merge_of_outputs outputs = [] := by
  induction outputs with
  | nil => simp [merge_of_outputs]
  | cons out rest ih =>
    have h1 : out = [] := h out (List.mem_cons_self _ _)
    have h2 : merge_of_outputs rest = [] :=
      ih (fun o ho => h o (List.mem_cons_of_mem _ ho))
    simp [merge_of_outputs_cons, h1, h2]

theorem refill_spec {κ δ : Type} (slots filled : List (merge_slot_t κ δ))
    (h : refill slots = some filled) :
    filled.map merge_slot_t.stream = slots.map merge_slot_t.stream ∧
    filled.map (fun s => s.mergee.fails) = slots.map (fun s => s.mergee.fails) ∧
    ∀ s ∈ filled, s.head = none → s.mergee.pending = [] := by
  induction slots generalizing filled with
  | nil =>
    simp [refill] at h
    subst h
    simp
  | cons s rest ih =>
    obtain ⟨it, head⟩ := s
    cases hr : refill rest with
    | none =>
      cases head with
      | some x => simp [refill, hr] at h
      | none =>
        cases hp : it.pending with
        | nil => cases hf : it.fails <;> simp [refill, slice_keys_iterator_t.next, hp, hf, hr] at h
        | cons a pend => simp [refill, slice_keys_iterator_t.next, hp, hr] at h
    | some filled1 =>
      obtain ⟨i1, i2, i3⟩ := ih filled1 hr
      cases head with
      | some x =>
        simp [refill, hr] at h
        subst h
        refine ⟨by simp [i1], by simp [i2], ?_⟩
        intro s hs
        rcases List.mem_cons.mp hs with rfl | hs
        · simp
        · exact i3 s hs
      | none =>
        cases hp : it.pending with
        | nil =>
          cases hf : it.fails with
          | true => simp [refill, slice_keys_iterator_t.next, hp, hf, hr] at h
          | false =>
            simp [refill, slice_keys_iterator_t.next, hp, hf, hr] at h
            subst h
            refine ⟨by simp [i1], by simp [i2], ?_⟩
            intro s hs
            rcases List.mem_cons.mp hs with rfl | hs
            · intro _
              exact hp
            · exact i3 s hs
        | cons a pend =>
          simp [refill, slice_keys_iterator_t.next, hp, hr] at h
          subst h
          refine ⟨by simp [i1, merge_slot_t.stream, hp], by simp [i2], ?_⟩
          intro s hs
          rcases List.mem_cons.mp hs with rfl | hs
          · simp
          · exact i3 s hs

theorem refill_no_failure {κ δ : Type} (slots : List (merge_slot_t κ δ))
    (h : ∀ s ∈ slots, s.mergee.fails = false) : ∃ filled, refill slots = some filled := by
  induction slots with
  | nil => exact ⟨[], rfl⟩
  | cons s rest ih =>
    obtain ⟨filled1, h1⟩ := ih (fun t ht => h t (List.mem_cons_of_mem _ ht))
    have hs : s.mergee.fails = false := h s (List.mem_cons_self _ _)
    obtain ⟨it, head⟩ := s
    cases head with
    | some x => simp [refill, h1]
    | none =>
      simp only at hs
      cases hp : it.pending with
      | nil => simp [refill, slice_keys_iterator_t.next, hp, hs, h1]
      | cons a pend => simp [refill, slice_keys_iterator_t.next, hp, h1]

theorem select_exhausted {κ δ : Type} [LinearOrder κ] (slots : List (merge_slot_t κ δ))
    (h : select slots = selection_t.exhausted) : ∀ s ∈ slots, s.head = none := by
  induction slots with
  | nil => simp
  | cons s rest ih =>
    cases hh : s.head with
    | some x =>
      cases hr : select rest with
      | exhausted => simp [select, hh, hr] at h
      | least b rest1 =>
        simp only [select, hh, hr] at h
        split_ifs at h
      | tie b =>
        simp only [select, hh, hr] at h
        split_ifs at h
    | none =>
      cases hr : select rest with
      | exhausted =>
        intro t ht
        rcases List.mem_cons.mp ht with rfl | ht
        · exact hh
        · exact ih hr t ht
      | least b rest1 => simp [select, hh, hr] at h
      | tie b => simp [select, hh, hr] at h

/-- Selecting a head takes exactly one item out of the slots and leaves the mergees as
failing or not as they were. -/
theorem select_least_size {κ δ : Type} [LinearOrder κ] (slots : List (merge_slot_t κ δ))
    (a : key_with_data_provider_t κ δ) (slots1 : List (merge_slot_t κ δ))
    (h : select slots = selection_t.least a slots1) :
    ((slots1.map merge_slot_t.stream).map List.length).sum + 1 =
        ((slots.map merge_slot_t.stream).map List.length).sum ∧
      slots1.map (fun s => s.mergee.fails) = slots.map (fun s => s.mergee.fails) := by
  induction slots generalizing a slots1 with
  | nil => simp [select] at h
  | cons s rest ih =>
    have hs0 : merge_slot_t.stream { s with head := none } = s.mergee.pending := by
      simp [merge_slot_t.stream]
    cases hh : s.head with
    | none =>
      cases hr : select rest with
      | exhausted => simp [select, hh, hr] at h
      | tie b => simp [select, hh, hr] at h
      | least b rest1 =>
        simp only [select, hh, hr, selection_t.least.injEq] at h
        obtain ⟨h1, h2⟩ := h
        subst h1
        subst h2
        obtain ⟨i1, i2⟩ := ih b rest1 hr
        refine ⟨?_, by simp [i2]⟩
        simp only [List.map_cons, List.sum_cons]
        omega
    | some x =>
      have hs : s.stream = x :: s.mergee.pending := by simp [merge_slot_t.stream, hh]
      have hx : ((({ s with head := none } :: rest).map merge_slot_t.stream).map
          List.length).sum + 1 =
            (((s :: rest).map merge_slot_t.stream).map List.length).sum ∧
          ({ s with head := none } :: rest).map (fun s => s.mergee.fails) =
            (s :: rest).map (fun s => s.mergee.fails) := by
        refine ⟨?_, by simp⟩
        simp only [List.map_cons, List.sum_cons, hs0, hs, List.length_cons]
        omega
      cases hr : select rest with
      | exhausted =>
        simp only [select, hh, hr, selection_t.least.injEq] at h
        obtain ⟨h1, h2⟩ := h
        subst h1
        subst h2
        exact hx
      | tie b =>
        simp only [select, hh, hr] at h
        split_ifs at h
        simp only [selection_t.least.injEq] at h
        obtain ⟨h1, h2⟩ := h
        subst h1
        subst h2
        exact hx
      | least b rest1 =>
        obtain ⟨i1, i2⟩ := ih b rest1 hr
        simp only [select, hh, hr] at h
        split_ifs at h
        · simp only [selection_t.least.injEq] at h
          obtain ⟨h1, h2⟩ := h
          subst h1
          subst h2
          refine ⟨?_, by simp [i2]⟩
          simp only [List.map_cons, List.sum_cons]
          omega
        · simp only [selection_t.least.injEq] at h
          obtain ⟨h1, h2⟩ := h
          subst h1
          subst h2
          exact hx

/-- Putting one sequence in front of sequences that were only shortened keeps the sequences
free of shared keys. -/
theorem disjoint_cons_of_sub {κ δ : Type} (o : List (key_with_data_provider_t κ δ))
    (outputs outputs1 : List (List (key_with_data_provider_t κ δ)))
    (ho : ∀ o2 ∈ outputs, ∀ a ∈ o, ∀ b ∈ o2, a.key ≠ b.key)
    (h1 : outputs1.Pairwise (fun o1 o2 => ∀ a ∈ o1, ∀ b ∈ o2, a.key ≠ b.key))
    (hsub : ∀ o1 ∈ outputs1, ∃ o2 ∈ outputs, ∀ x ∈ o1, x ∈ o2) :
    (o :: outputs1).Pairwise (fun o1 o2 => ∀ a ∈ o1, ∀ b ∈ o2, a.key ≠ b.key) ∧
      ∀ o1 ∈ o :: outputs1, ∃ o2 ∈ o :: outputs, ∀ x ∈ o1, x ∈ o2 := by
  constructor
  · rw [List.pairwise_cons]
    refine ⟨?_, h1⟩
    intro o1 ho1 a ha b hb
    obtain ⟨o2, ho2, hin⟩ := hsub o1 ho1
    exact ho o2 ho2 a ha b (hin b hb)
  · intro o1 ho1
    rcases List.mem_cons.mp ho1 with rfl | ho1
    · exact ⟨o1, List.mem_cons_self _ _, fun x hx => hx⟩
    · obtain ⟨o2, ho2, hin⟩ := hsub o1 ho1
      exact ⟨o2, List.mem_cons_of_mem _ ho2, hin⟩

/-- On slots whose streams share no key, the selection never finds a tie, and the head it
selects is the head of the reference merge of the streams. -/
theorem select_disjoint {κ δ : Type} [LinearOrder κ] (slots : List (merge_slot_t κ δ))
    (hprimed : ∀ s ∈ slots, s.head = none → s.mergee.pending = [])
    (hdisjoint : (slots.map merge_slot_t.stream).Pairwise
      (fun o1 o2 => ∀ a ∈ o1, ∀ b ∈ o2, a.key ≠ b.key)) :
    (∀ b, select slots ≠ selection_t.tie b) ∧
      ∀ a slots1, select slots = selection_t.least a slots1 →
        merge_of_outputs (slots.map merge_slot_t.stream) =
            a :: merge_of_outputs (slots1.map merge_slot_t.stream) ∧
          (slots1.map merge_slot_t.stream).Pairwise
            (fun o1 o2 => ∀ a ∈ o1, ∀ b ∈ o2, a.key ≠ b.key) ∧
          ∀ o1 ∈ slots1.map merge_slot_t.stream,
            ∃ o2 ∈ slots.map merge_slot_t.stream, ∀ x ∈ o1, x ∈ o2 := by
  induction slots with
  | nil => simp [select]
  | cons s rest ih =>
    have hrest : ∀ t ∈ rest, t.head = none → t.mergee.pending = [] :=
      fun t ht => hprimed t (List.mem_cons_of_mem _ ht)
    rw [List.map_cons, List.pairwise_cons] at hdisjoint
    obtain ⟨hs_rest, hd_rest⟩ := hdisjoint
    obtain ⟨ihT, ihL⟩ := ih hrest hd_rest
    cases hh : s.head with
    | none =>
      have hs : s.stream = [] := by
        simp [merge_slot_t.stream, hh, hprimed s (List.mem_cons_self _ _) hh]
      cases hr : select rest with
      | exhausted => simp [select, hh, hr]
      | tie b => exact absurd hr (ihT b)
      | least b rest1 =>
        obtain ⟨i1, i2, i3⟩ := ihL b rest1 hr
        refine ⟨by simp [select, hh, hr], ?_⟩
        intro a slots1 h
        simp only [select, hh, hr, selection_t.least.injEq] at h
        obtain ⟨h1, h2⟩ := h
        subst h1
        subst h2
        obtain ⟨k1, k2⟩ := disjoint_cons_of_sub s.stream _ _ hs_rest i2 i3
        exact ⟨by simp [merge_of_outputs_cons, hs, i1], k1, k2⟩
    | some x =>
      have hs : s.stream = x :: s.mergee.pending := by simp [merge_slot_t.stream, hh]
      have hs0 : merge_slot_t.stream { s with head := none } = s.mergee.pending := by
        simp [merge_slot_t.stream]
      have hxs : x ∈ s.stream := by
        rw [hs]
        exact List.mem_cons_self _ _
      have keep : (({ s with head := none } :: rest).map merge_slot_t.stream).Pairwise
            (fun o1 o2 => ∀ a ∈ o1, ∀ b ∈ o2, a.key ≠ b.key) ∧
          ∀ o1 ∈ ({ s with head := none } :: rest).map merge_slot_t.stream,
            ∃ o2 ∈ (s :: rest).map merge_slot_t.stream, ∀ y ∈ o1, y ∈ o2 := by
        constructor
        · rw [List.map_cons, List.pairwise_cons, hs0]
          refine ⟨?_, hd_rest⟩
          intro o ho y hy z hz
          refine hs_rest o ho y ?_ z hz
          rw [hs]
          exact List.mem_cons_of_mem _ hy
        · intro o1 ho1
          rw [List.map_cons, List.mem_cons, hs0] at ho1
          rcases ho1 with rfl | ho1
          · refine ⟨s.stream, by simp, ?_⟩
            intro y hy
            rw [hs]
            exact List.mem_cons_of_mem _ hy
          · refine ⟨o1, ?_, fun y hy => hy⟩
            rw [List.map_cons]
            exact List.mem_cons_of_mem _ ho1
      cases hr : select rest with
      | tie b => exact absurd hr (ihT b)
      | exhausted =>
        have hnil : merge_of_outputs (rest.map merge_slot_t.stream) = [] := by
          apply merge_of_outputs_all_nil
          intro out hout
          obtain ⟨t, ht, rfl⟩ := List.mem_map.mp hout
          have h1 := select_exhausted rest hr t ht
          simp [merge_slot_t.stream, h1, hrest t ht h1]
        refine ⟨by simp [select, hh, hr], ?_⟩
        intro a slots1 h
        simp only [select, hh, hr, selection_t.least.injEq] at h
        obtain ⟨h1, h2⟩ := h
        subst h1
        subst h2
        exact ⟨by simp [merge_of_outputs_cons, hs, hs0, hnil], keep.1, keep.2⟩
      | least b rest1 =>
        obtain ⟨i1, i2, i3⟩ := ihL b rest1 hr
        have hb : ∃ o ∈ rest.map merge_slot_t.stream, b ∈ o := by
          have hb1 : b ∈ merge_of_outputs (rest.map merge_slot_t.stream) := by
            rw [i1]
            exact List.mem_cons_self _ _
          exact List.mem_flatten.mp ((merge_of_outputs_perm _).mem_iff.mp hb1)
        obtain ⟨o, ho, hbo⟩ := hb
        have hne : x.key ≠ b.key := hs_rest o ho x hxs b hbo
        rcases lt_trichotomy b.key x.key with hlt | heq | hgt
        · have hless : b.less x = true := by simp [key_with_data_provider_t.less, hlt]
          refine ⟨by simp [select, hh, hr, hless], ?_⟩
          intro a slots1 h
          simp only [select, hh, hr, hless, if_true, selection_t.least.injEq] at h
          obtain ⟨h1, h2⟩ := h
          subst h1
          subst h2
          have hle : ¬ (key_le x b = true) := by simp [key_le, hlt]
          obtain ⟨k1, k2⟩ := disjoint_cons_of_sub s.stream _ _ hs_rest i2 i3
          exact ⟨by simp [merge_of_outputs_cons, hs, i1, List.cons_merge_cons_neg _ _ _ hle],
            k1, k2⟩
        · exact absurd heq.symm hne
        · have hless1 : b.less x = false := by
            simp [key_with_data_provider_t.less, le_of_lt hgt]
          have hless2 : x.less b = true := by simp [key_with_data_provider_t.less, hgt]
          refine ⟨by simp [select, hh, hr, hless1, hless2], ?_⟩
          intro a slots1 h
          simp only [select, hh, hr, hless1, hless2, Bool.false_eq_true, if_false, if_true,
            selection_t.least.injEq] at h
          obtain ⟨h1, h2⟩ := h
          subst h1
          subst h2
          have hle : key_le x b = true := by simp [key_le, le_of_lt hgt]
          exact ⟨by simp [merge_of_outputs_cons, hs, hs0, i1,
            List.cons_merge_cons_pos _ _ _ hle], keep.1, keep.2⟩

/-- A pull that yields an item takes exactly one item out of the merge iterator. -/
theorem next_item {κ δ : Type} [LinearOrder κ] (m m1 : merge_ordered_data_iterator_t κ δ)
    (a : key_with_data_provider_t κ δ) (h : m.next = (pull_t.item a, m1)) :
    m1.size + 1 = m.size ∧
      m1.slots.map (fun s => s.mergee.fails) = m.slots.map (fun s => s.mergee.fails) := by
  cases hr : refill m.slots with
  | none => simp [merge_ordered_data_iterator_t.next, hr] at h
  | some filled =>
    obtain ⟨r1, r2, _⟩ := refill_spec m.slots filled hr
    cases hs : select filled with
    | exhausted => simp [merge_ordered_data_iterator_t.next, hr, hs] at h
    | tie b => simp [merge_ordered_data_iterator_t.next, hr, hs] at h
    | least b slots1 =>
      simp only [merge_ordered_data_iterator_t.next, hr, hs, Prod.mk.injEq,
        pull_t.item.injEq] at h
      obtain ⟨h1, h2⟩ := h
      subst h1
      subst h2
      obtain ⟨i1, i2⟩ := select_least_size filled b slots1 hs
      refine ⟨?_, by rw [i2, r2]⟩
      simp only [merge_ordered_data_iterator_t.size]
      rw [← r1]
      exact i1

/-- On a merge iterator whose slots share no key, a pull that yields an item yields the head
of the reference merge and leaves slots that share no key. -/
theorem next_item_disjoint {κ δ : Type} [LinearOrder κ]
    (m m1 : merge_ordered_data_iterator_t κ δ) (a : key_with_data_provider_t κ δ)
    (hdisjoint : (m.slots.map merge_slot_t.stream).Pairwise
      (fun o1 o2 => ∀ a ∈ o1, ∀ b ∈ o2, a.key ≠ b.key))
    (h : m.next = (pull_t.item a, m1)) :
    merge_of_outputs (m.slots.map merge_slot_t.stream) =
        a :: merge_of_outputs (m1.slots.map merge_slot_t.stream) ∧
      (m1.slots.map merge_slot_t.stream).Pairwise
        (fun o1 o2 => ∀ a ∈ o1, ∀ b ∈ o2, a.key ≠ b.key) := by
  cases hr : refill m.slots with
  | none => simp [merge_ordered_data_iterator_t.next, hr] at h
  | some filled =>
    obtain ⟨r1, _, r3⟩ := refill_spec m.slots filled hr
    rw [← r1] at hdisjoint ⊢
    cases hs : select filled with
    | exhausted => simp [merge_ordered_data_iterator_t.next, hr, hs] at h
    | tie b => simp [merge_ordered_data_iterator_t.next, hr, hs] at h
    | least b slots1 =>
      simp only [merge_ordered_data_iterator_t.next, hr, hs, Prod.mk.injEq,
        pull_t.item.injEq] at h
      obtain ⟨h1, h2⟩ := h
      subst h1
      subst h2
      obtain ⟨i1, i2, _⟩ := (select_disjoint filled r3 hdisjoint).2 b slots1 hs
      exact ⟨i1, i2⟩

theorem next_done {κ δ : Type} [LinearOrder κ] (m m1 : merge_ordered_data_iterator_t κ δ)
    (h : m.next = (pull_t.done, m1)) :
    merge_of_outputs (m.slots.map merge_slot_t.stream) = [] := by
  cases hr : refill m.slots with
  | none => simp [merge_ordered_data_iterator_t.next, hr] at h
  | some filled =>
    obtain ⟨r1, _, r3⟩ := refill_spec m.slots filled hr
    cases hs : select filled with
    | exhausted =>
      rw [← r1]
      apply merge_of_outputs_all_nil
      intro out hout
      obtain ⟨t, ht, rfl⟩ := List.mem_map.mp hout
      have h1 := select_exhausted filled hs t ht
      simp [merge_slot_t.stream, h1, r3 t ht h1]
    | least b slots1 => simp [merge_ordered_data_iterator_t.next, hr, hs] at h
    | tie b => simp [merge_ordered_data_iterator_t.next, hr, hs] at h

/-- Nothing raises when no mergee fails and the slots share no key. -/
theorem next_no_raise {κ δ : Type} [LinearOrder κ] (m m1 : merge_ordered_data_iterator_t κ δ)
    (hcalm : ∀ s ∈ m.slots, s.mergee.fails = false)
    (hdisjoint : (m.slots.map merge_slot_t.stream).Pairwise
      (fun o1 o2 => ∀ a ∈ o1, ∀ b ∈ o2, a.key ≠ b.key)) :
    m.next ≠ (pull_t.raise, m1) := by
  obtain ⟨filled, hr⟩ := refill_no_failure m.slots hcalm
  obtain ⟨r1, _, r3⟩ := refill_spec m.slots filled hr
  rw [← r1] at hdisjoint
  cases hs : select filled with
  | exhausted => simp [merge_ordered_data_iterator_t.next, hr, hs]
  | least b slots1 => simp [merge_ordered_data_iterator_t.next, hr, hs]
  | tie b => exact absurd hs ((select_disjoint filled r3 hdisjoint).1 b)

theorem no_failure_of_map_eq {κ δ : Type} (slots slots1 : List (merge_slot_t κ δ))
    (h : slots1.map (fun s => s.mergee.fails) = slots.map (fun s => s.mergee.fails))
    (hcalm : ∀ s ∈ slots, s.mergee.fails = false) : ∀ s ∈ slots1, s.mergee.fails = false := by
  intro s hs
  have h1 : s.mergee.fails ∈ slots1.map (fun s => s.mergee.fails) :=
    List.mem_map.mpr ⟨s, hs, rfl⟩
  rw [h] at h1
  obtain ⟨t, ht, he⟩ := List.mem_map.mp h1
  rw [← he]
  exact hcalm t ht

/-- Pulled to the end, a merge iterator over mergees that do not fail and share no key
yields the reference merge of what its slots hold. -/
theorem to_list_eq_merge {κ δ : Type} [LinearOrder κ] (fuel : Nat)
    (m : merge_ordered_data_iterator_t κ δ)
    (hcalm : ∀ s ∈ m.slots, s.mergee.fails = false)
    (hdisjoint : (m.slots.map merge_slot_t.stream).Pairwise
      (fun o1 o2 => ∀ a ∈ o1, ∀ b ∈ o2, a.key ≠ b.key))
    (hfuel : m.size < fuel) :
    merge_ordered_data_iterator_t.to_list fuel m =
      merge_of_outputs (m.slots.map merge_slot_t.stream) := by
  induction fuel generalizing m with
  | zero => exact absurd hfuel (Nat.not_lt_zero _)
  | succ fuel ih =>
    cases hn : m.next with
    | mk r m1 =>
      cases r with
      | item a =>
        obtain ⟨i1, i2⟩ := next_item m m1 a hn
        obtain ⟨j1, j2⟩ := next_item_disjoint m m1 a hdisjoint hn
        simp only [merge_ordered_data_iterator_t.to_list, hn]
        rw [ih m1 (no_failure_of_map_eq m.slots m1.slots i2 hcalm) j2 (by omega), j1]
      | done =>
        simp only [merge_ordered_data_iterator_t.to_list, hn]
        exact (next_done m m1 hn).symm
      | raise => exact absurd hn (next_no_raise m m1 hcalm hdisjoint)

/-! ## The drain loop -/

/-- With a cap of at least one more than what is already collected, the drain loop stops at
the cap. -/
theorem drain_length_le {κ δ : Type} [LinearOrder κ] (max_results fuel : Nat)
    (m : merge_ordered_data_iterator_t κ δ) (results : List (key_with_data_provider_t κ δ))
    (h : results.length < max_results) :
    (drain max_results fuel m results).2.length ≤ max_results := by
  induction fuel generalizing m results with
  | zero => simpa [drain] using Nat.le_of_lt h
  | succ fuel ih =>
    cases hn : m.next with
    | mk r m1 =>
      cases r with
      | item a =>
        simp only [drain, hn]
        split
        · rename_i heq
          simp [← heq]
        · rename_i hne
          apply ih
          simp only [List.length_append, List.length_singleton] at hne ⊢
          omega
      | done => simpa [drain, hn] using Nat.le_of_lt h
      | raise => simpa [drain, hn] using Nat.le_of_lt h

/-- What the drain loop collects: below the cap, as many further items of the merged stream
as the cap leaves room for; at or beyond the cap (in particular for a cap of 0), all of
them. -/
theorem drain_results {κ δ : Type} [LinearOrder κ] (max_results fuel : Nat)
    (m : merge_ordered_data_iterator_t κ δ) (results : List (key_with_data_provider_t κ δ)) :
    (drain max_results fuel m results).2 =
      results ++
        (if results.length < max_results then
          (merge_ordered_data_iterator_t.to_list fuel m).take (max_results - results.length)
        else merge_ordered_data_iterator_t.to_list fuel m) := by
  induction fuel generalizing m results with
  | zero => simp [drain, merge_ordered_data_iterator_t.to_list]
  | succ fuel ih =>
    cases hn : m.next with
    | mk r m1 =>
      cases r with
      | item a =>
        simp only [drain, merge_ordered_data_iterator_t.to_list, hn]
        by_cases heq : (results ++ [a]).length = max_results
        · simp only [heq, if_true]
          simp only [List.length_append, List.length_singleton] at heq
          have h1 : results.length < max_results := by omega
          have h2 : max_results - results.length = 1 := by omega
          simp [h1, h2]
        · simp only [heq, if_false]
          rw [ih m1 (results ++ [a])]
          simp only [List.length_append, List.length_singleton] at heq ⊢
          by_cases hlt : results.length < max_results
          · have h1 : results.length + 1 < max_results := by omega
            have h2 : max_results - results.length = (max_results - (results.length + 1)) + 1 := by
              omega
            simp only [h1, hlt, if_true]
            rw [h2, List.take_succ_cons]
            simp
          · have h1 : ¬ results.length + 1 < max_results := by omega
            simp [h1, hlt]
      | done => simp [drain, merge_ordered_data_iterator_t.to_list, hn]
      | raise => simp [drain, merge_ordered_data_iterator_t.to_list, hn]

/-- The pulls allotted to the drain loop suffice: the loop is always left by `return` or by
an exception. -/
theorem drain_finishes {κ δ : Type} [LinearOrder κ] (max_results fuel : Nat)
    (m : merge_ordered_data_iterator_t κ δ) (results : List (key_with_data_provider_t κ δ))
    (hfuel : m.size < fuel) : (drain max_results fuel m results).1 ≠ exit_t.unfinished := by
  induction fuel generalizing m results with
  | zero => exact absurd hfuel (Nat.not_lt_zero _)
  | succ fuel ih =>
    cases hn : m.next with
    | mk r m1 =>
      cases r with
      | item a =>
        obtain ⟨i1, _⟩ := next_item m m1 a hn
        simp only [drain, hn]
        split
        · simp
        · exact ih m1 _ (by omega)
      | done => simp [drain, hn]
      | raise => simp [drain, hn]

/-- When no mergee fails and the slots share no key, the drain loop is left normally. -/
theorem drain_returns {κ δ : Type} [LinearOrder κ] (max_results fuel : Nat)
    (m : merge_ordered_data_iterator_t κ δ) (results : List (key_with_data_provider_t κ δ))
    (hcalm : ∀ s ∈ m.slots, s.mergee.fails = false)
    (hdisjoint : (m.slots.map merge_slot_t.stream).Pairwise
      (fun o1 o2 => ∀ a ∈ o1, ∀ b ∈ o2, a.key ≠ b.key))
    (hfuel : m.size < fuel) :
    (drain max_results fuel m results).1 = exit_t.returned := by
  induction fuel generalizing m results with
  | zero => exact absurd hfuel (Nat.not_lt_zero _)
  | succ fuel ih =>
    cases hn : m.next with
    | mk r m1 =>
      cases r with
      | item a =>
        obtain ⟨i1, i2⟩ := next_item m m1 a hn
        obtain ⟨_, j2⟩ := next_item_disjoint m m1 a hdisjoint hn
        simp only [drain, hn]
        split
        · rfl
        · exact ih m1 _ (no_failure_of_map_eq m.slots m1.slots i2 hcalm) j2 (by omega)
      | done => simp [drain, hn]
      | raise => exact absurd hn (next_no_raise m m1 hcalm hdisjoint)

/-! ## The frame of `btree_rget` -/

theorem btree_rget_results {κ δ : Type} [LinearOrder κ] (locks : lock_manager_t)
    (store : btree_key_value_store_t κ δ) (start end_ : Option κ)
    (left_open right_open : Bool) (max_results : Nat) :
    (btree_rget locks store start end_ left_open right_open max_results).results =
      (drain max_results
        ((merge_ordered_data_iterator_t.create
          (open_slices locks start end_ left_open right_open store.slices
            ⟨[], [], [], []⟩).iterator_heap
          (open_slices locks start end_ left_open right_open store.slices
            ⟨[], [], [], []⟩).ms).size + 1)
        (merge_ordered_data_iterator_t.create
          (open_slices locks start end_ left_open right_open store.slices
            ⟨[], [], [], []⟩).iterator_heap
          (open_slices locks start end_ left_open right_open store.slices
            ⟨[], [], [], []⟩).ms) []).2 := by
  simp only [btree_rget]
  split <;> simp_all

theorem btree_rget_exit {κ δ : Type} [LinearOrder κ] (locks : lock_manager_t)
    (store : btree_key_value_store_t κ δ) (start end_ : Option κ)
    (left_open right_open : Bool) (max_results : Nat) :
    (btree_rget locks store start end_ left_open right_open max_results).exit =
      (drain max_results
        ((merge_ordered_data_iterator_t.create
          (open_slices locks start end_ left_open right_open store.slices
            ⟨[], [], [], []⟩).iterator_heap
          (open_slices locks start end_ left_open right_open store.slices
            ⟨[], [], [], []⟩).ms).size + 1)
        (merge_ordered_data_iterator_t.create
          (open_slices locks start end_ left_open right_open store.slices
            ⟨[], [], [], []⟩).iterator_heap
          (open_slices locks start end_ left_open right_open store.slices
            ⟨[], [], [], []⟩).ms) []).1 := by
  simp only [btree_rget]
  split <;> simp_all

theorem fresh_slots {κ δ : Type} [LinearOrder κ] (locks : lock_manager_t)
    (store : btree_key_value_store_t κ δ) (start end_ : Option κ)
    (left_open right_open : Bool) :
    (merge_ordered_data_iterator_t.create
      (open_slices locks start end_ left_open right_open store.slices
        ⟨[], [], [], []⟩).iterator_heap
      (open_slices locks start end_ left_open right_open store.slices
        ⟨[], [], [], []⟩).ms).slots =
      (store.slices.enum.map (fun p =>
        slice_keys_iterator_t.create locks p.1 p.2 start end_ left_open right_open)).map
        (fun it => (⟨it, none⟩ : merge_slot_t κ δ)) := by
  have h := filterMap_get_range (fun it => (⟨it, none⟩ : merge_slot_t κ δ)) []
    (store.slices.enum.map (fun p =>
      slice_keys_iterator_t.create locks p.1 p.2 start end_ left_open right_open))
  simp only [List.length_nil, List.nil_append, List.length_map, List.enum_length] at h
  simp only [merge_ordered_data_iterator_t.create, open_slices_iterator_heap, open_slices_ms,
    List.length_nil, List.nil_append, List.enum]
  simpa [List.enum] using h

theorem fresh_no_failure {κ δ : Type} [LinearOrder κ]
    (store : btree_key_value_store_t κ δ) (start end_ : Option κ)
    (left_open right_open : Bool) :
    ∀ s ∈ (merge_ordered_data_iterator_t.create
      (open_slices no_lock_failure start end_ left_open right_open store.slices
        ⟨[], [], [], []⟩).iterator_heap
      (open_slices no_lock_failure start end_ left_open right_open store.slices
        ⟨[], [], [], []⟩).ms).slots, s.mergee.fails = false := by
  rw [fresh_slots]
  intro s hs
  simp only [List.mem_map] at hs
  obtain ⟨it, ⟨p, _, rfl⟩, rfl⟩ := hs
  simp [slice_keys_iterator_t.create, no_lock_failure]

theorem fresh_streams {κ δ : Type} [LinearOrder κ]
    (store : btree_key_value_store_t κ δ) (start end_ : Option κ)
    (left_open right_open : Bool) :
    (merge_ordered_data_iterator_t.create
      (open_slices no_lock_failure start end_ left_open right_open store.slices
        ⟨[], [], [], []⟩).iterator_heap
      (open_slices no_lock_failure start end_ left_open right_open store.slices
        ⟨[], [], [], []⟩).ms).slots.map merge_slot_t.stream =
      slice_outputs store start end_ left_open right_open := by
  rw [fresh_slots]
  simp only [List.map_map, slice_outputs]
  have h : (merge_slot_t.stream ∘ (fun it => (⟨it, none⟩ : merge_slot_t κ δ)) ∘ fun p =>
      slice_keys_iterator_t.create no_lock_failure p.1 p.2 start end_ left_open right_open) =
      (fun slice => slice_output slice start end_ left_open right_open) ∘
        (Prod.snd : Nat × btree_slice_t κ δ → btree_slice_t κ δ) := by
    funext p
    simp [merge_slot_t.stream, slice_keys_iterator_t.create, no_lock_failure]
  rw [h, ← List.map_map, List.enum_map_snd]

/-- Without lock failures, and when no key occurs in the outputs of two slices, the merged
stream of a scan is the reference merge of the outputs of the slices. -/
theorem merged_stream_eq_merge {κ δ : Type} [LinearOrder κ]
    (store : btree_key_value_store_t κ δ) (start end_ : Option κ)
    (left_open right_open : Bool)
    (hdisjoint : (slice_outputs store start end_ left_open right_open).Pairwise
      (fun o1 o2 => ∀ a ∈ o1, ∀ b ∈ o2, a.key ≠ b.key)) :
    merged_stream no_lock_failure store start end_ left_open right_open =
      merge_of_outputs (slice_outputs store start end_ left_open right_open) := by
  simp only [merged_stream]
  rw [to_list_eq_merge _ _ (fresh_no_failure store start end_ left_open right_open)
    (by rw [fresh_streams]; exact hdisjoint) (Nat.lt_succ_self _), fresh_streams]

/-- Without lock failures, and when no key occurs in the outputs of two slices,
`btree_rget` returns. -/
theorem btree_rget_returns {κ δ : Type} [LinearOrder κ]
    (store : btree_key_value_store_t κ δ) (start end_ : Option κ)
    (left_open right_open : Bool) (max_results : Nat)
    (hdisjoint : (slice_outputs store start end_ left_open right_open).Pairwise
      (fun o1 o2 => ∀ a ∈ o1, ∀ b ∈ o2, a.key ≠ b.key)) :
    (btree_rget no_lock_failure store start end_ left_open right_open max_results).exit =
      exit_t.returned := by
  rw [btree_rget_exit]
  exact drain_returns _ _ _ _ (fresh_no_failure store start end_ left_open right_open)
    (by rw [fresh_streams]; exact hdisjoint) (Nat.lt_succ_self _)

/-- Whatever the lock manager does, control leaves `btree_rget` within the pulls allotted to
the model. -/
theorem btree_rget_finishes {κ δ : Type} [LinearOrder κ] (locks : lock_manager_t)
    (store : btree_key_value_store_t κ δ) (start end_ : Option κ)
    (left_open right_open : Bool) (max_results : Nat) :
    (btree_rget locks store start end_ left_open right_open max_results).exit ≠
      exit_t.unfinished := by
  rw [btree_rget_exit]
  exact drain_finishes _ _ _ _ (Nat.lt_succ_self _)

/-- The results in terms of the merged stream, for every lock manager. -/
theorem btree_rget_results_eq {κ δ : Type} [LinearOrder κ] (locks : lock_manager_t)
    (store : btree_key_value_store_t κ δ) (start end_ : Option κ)
    (left_open right_open : Bool) (max_results : Nat) :
    (btree_rget locks store start end_ left_open right_open max_results).results =
      if 0 < max_results then
        (merged_stream locks store start end_ left_open right_open).take max_results
      else merged_stream locks store start end_ left_open right_open := by
  rw [btree_rget_results, drain_results]
  simp [merged_stream]

/-- On a normal return the teardown loop has run over the whole of `ms`. -/
theorem btree_rget_torn_down {κ δ : Type} [LinearOrder κ] (locks : lock_manager_t)
    (store : btree_key_value_store_t κ δ) (start end_ : Option κ)
    (left_open right_open : Bool) (max_results : Nat)
    (hret : (btree_rget locks store start end_ left_open right_open max_results).exit =
      exit_t.returned) :
    (btree_rget locks store start end_ left_open right_open max_results).ms = [] ∧
      (btree_rget locks store start end_ left_open right_open max_results).deleted =
        (List.range' 0 store.slices.length).reverse := by
  revert hret
  simp only [btree_rget]
  generalize drain max_results
    ((merge_ordered_data_iterator_t.create
      (open_slices locks start end_ left_open right_open store.slices
        ⟨[], [], [], []⟩).iterator_heap
      (open_slices locks start end_ left_open right_open store.slices
        ⟨[], [], [], []⟩).ms).size + 1)
    (merge_ordered_data_iterator_t.create
      (open_slices locks start end_ left_open right_open store.slices
        ⟨[], [], [], []⟩).iterator_heap
      (open_slices locks start end_ left_open right_open store.slices
        ⟨[], [], [], []⟩).ms) [] = d
  obtain ⟨e, r⟩ := d
  cases e
  · intro _
    simp only [open_slices_ms, List.nil_append, List.length_nil]
    rw [teardown_eq _ _ _ (Nat.le_refl _)]
    simp
  · intro h
    simp at h
  · intro h
    simp at h

theorem btree_rget_iterator_heap {κ δ : Type} [LinearOrder κ] (locks : lock_manager_t)
    (store : btree_key_value_store_t κ δ) (start end_ : Option κ)
    (left_open right_open : Bool) (max_results : Nat) :
    (btree_rget locks store start end_ left_open right_open max_results).iterator_heap =
      store.slices.enum.map (fun p =>
        slice_keys_iterator_t.create locks p.1 p.2 start end_ left_open right_open) := by
  simp only [btree_rget]
  split <;> simp [open_slices_iterator_heap, List.enum]

/-- When an exception leaves the drain loop, the teardown loop is not run: `ms` still holds
the address of every slice iterator and nothing was deleted. -/
theorem btree_rget_raised_keeps_iterators {κ δ : Type} [LinearOrder κ] (locks : lock_manager_t)
    (store : btree_key_value_store_t κ δ) (start end_ : Option κ)
    (left_open right_open : Bool) (max_results : Nat)
    (hraised : (btree_rget locks store start end_ left_open right_open max_results).exit =
      exit_t.raised) :
    (btree_rget locks store start end_ left_open right_open max_results).ms =
        List.range' 0 store.slices.length ∧
      (btree_rget locks store start end_ left_open right_open max_results).deleted = [] := by
  revert hraised
  simp only [btree_rget]
  generalize drain max_results
    ((merge_ordered_data_iterator_t.create
      (open_slices locks start end_ left_open right_open store.slices
        ⟨[], [], [], []⟩).iterator_heap
      (open_slices locks start end_ left_open right_open store.slices
        ⟨[], [], [], []⟩).ms).size + 1)
    (merge_ordered_data_iterator_t.create
      (open_slices locks start end_ left_open right_open store.slices
        ⟨[], [], [], []⟩).iterator_heap
      (open_slices locks start end_ left_open right_open store.slices
        ⟨[], [], [], []⟩).ms) [] = d
  obtain ⟨e, r⟩ := d
  cases e
  · intro h
    simp at h
  · intro _
    simp [open_slices_ms]
  · intro h
    simp at h

theorem create_arguments {κ δ : Type} [LinearOrder κ] (locks : lock_manager_t)
    (transactor : Nat) (slice : btree_slice_t κ δ) (start end_ : Option κ)
    (left_open right_open : Bool) :
    (slice_keys_iterator_t.create locks transactor slice start end_ left_open
        right_open).transactor = transactor ∧
      (slice_keys_iterator_t.create locks transactor slice start end_ left_open
        right_open).slice = slice ∧
      (slice_keys_iterator_t.create locks transactor slice start end_ left_open
        right_open).start = start ∧
      (slice_keys_iterator_t.create locks transactor slice start end_ left_open
        right_open).end_ = end_ ∧
      (slice_keys_iterator_t.create locks transactor slice start end_ left_open
        right_open).left_open = left_open ∧
      (slice_keys_iterator_t.create locks transactor slice start end_ left_open
        right_open).right_open = right_open := by
  simp only [slice_keys_iterator_t.create]
  cases locks slice.cache <;> simp

/-! ## Order of the reference merge -/

theorem merge_strict {κ δ : Type} [LinearOrder κ] (l1 l2 : List (key_with_data_provider_t κ δ))
    (h1 : l1.Pairwise (fun a b => a.key < b.key)) (h2 : l2.Pairwise (fun a b => a.key < b.key))
    (hd : ∀ a ∈ l1, ∀ b ∈ l2, a.key ≠ b.key) :
    (List.merge l1 l2 key_le).Pairwise (fun a b => a.key < b.key) := by
  have hle : (List.merge l1 l2 key_le).Pairwise (fun a b => key_le a b = true) := by
    apply @List.sorted_merge _ key_le
    · intro a b c hab hbc
      simp only [key_le, decide_eq_true_eq] at hab hbc ⊢
      exact le_trans hab hbc
    · intro a b
      simp only [key_le, Bool.or_eq_true, decide_eq_true_eq]
      exact le_total a.key b.key
    · exact h1.imp (fun h => by simpa [key_le] using le_of_lt h)
    · exact h2.imp (fun h => by simpa [key_le] using le_of_lt h)
  have hne : (List.merge l1 l2 key_le).Pairwise (fun a b => a.key ≠ b.key) := by
    have happ : (l1 ++ l2).Pairwise (fun a b => a.key ≠ b.key) := by
      rw [List.pairwise_append]
      exact ⟨h1.imp (fun h => ne_of_lt h), h2.imp (fun h => ne_of_lt h), hd⟩
    exact (List.Perm.pairwise_iff (fun h => Ne.symm h)
      (List.merge_perm_append key_le)).mpr happ
  refine (hle.and hne).imp ?_
  intro a b hab
  exact lt_of_le_of_ne (by simpa [key_le] using hab.1) hab.2

theorem merge_of_outputs_strict {κ δ : Type} [LinearOrder κ]
    (outputs : List (List (key_with_data_provider_t κ δ)))
    (hsorted : ∀ out ∈ outputs, out.Pairwise (fun a b => a.key < b.key))
    (hdisjoint : outputs.Pairwise (fun o1 o2 => ∀ a ∈ o1, ∀ b ∈ o2, a.key ≠ b.key)) :
    (merge_of_outputs outputs).Pairwise (fun a b => a.key < b.key) := by
  induction outputs with
  | nil => simp [merge_of_outputs]
  | cons out rest ih =>
    rw [merge_of_outputs_cons]
    rw [List.pairwise_cons] at hdisjoint
    apply merge_strict
    · exact hsorted out (List.mem_cons_self _ _)
    · exact ih (fun o ho => hsorted o (List.mem_cons_of_mem _ ho)) hdisjoint.2
    · intro a ha b hb
      have hb1 : b ∈ rest.flatten := (merge_of_outputs_perm rest).mem_iff.mp hb
      obtain ⟨o, ho, hbo⟩ := List.mem_flatten.mp hb1
      exact hdisjoint.1 o ho a ha b hbo

/-! ## The claims -/

/-- Claim C1, as stated, fails for a cap of 0: on a store of one slice holding the key 1 the
scan of the closed range from 1 to 1 with `max_results = 0` returns one item, more than the
cap. -/
theorem rget_cap_zero_exceeds_cap :
    (btree_rget no_lock_failure store_one (some 1) (some 1) false false 0).exit =
        exit_t.returned ∧
      ¬ ((btree_rget no_lock_failure store_one (some 1) (some 1) false false
        0).results.length ≤ 0) := by
  decide

/-- Claim C1, amended: for every lock manager, store, range and every `max_results` of at
least 1, the result list of `btree_rget` has length at most `max_results`. -/
theorem rget_length_le_cap {κ δ : Type} [LinearOrder κ] (locks : lock_manager_t)
    (store : btree_key_value_store_t κ δ) (start end_ : Option κ)
    (left_open right_open : Bool) (max_results : Nat) (hcap : 1 ≤ max_results) :
    (btree_rget locks store start end_ left_open right_open max_results).results.length ≤
      max_results := by
  rw [btree_rget_results]
  exact drain_length_le _ _ _ _ (by simpa using hcap)

/-- The scenario of two slices with a cap of 3 meets the hypothesis on the cap. -/
theorem rget_length_le_cap_witness :
    1 ≤ 3 ∧
      (btree_rget no_lock_failure store_ab (some 2) (some 5) false false 3).results.length ≤
        3 :=
  ⟨by decide, rget_length_le_cap no_lock_failure store_ab (some 2) (some 5) false false 3
    (by decide)⟩

/-- Claim C2: when the output of every slice is strictly ascending by key and no key occurs
in the outputs of two slices, the scan returns, for every `max_results`, and its result list
is strictly ascending by key. -/
theorem rget_strictly_ascending {κ δ : Type} [LinearOrder κ]
    (store : btree_key_value_store_t κ δ) (start end_ : Option κ)
    (left_open right_open : Bool) (max_results : Nat)
    (hsorted : ∀ out ∈ slice_outputs store start end_ left_open right_open,
      out.Pairwise (fun a b => a.key < b.key))
    (hdisjoint : (slice_outputs store start end_ left_open right_open).Pairwise
      (fun o1 o2 => ∀ a ∈ o1, ∀ b ∈ o2, a.key ≠ b.key)) :
    (btree_rget no_lock_failure store start end_ left_open right_open max_results).exit =
        exit_t.returned ∧
      (btree_rget no_lock_failure store start end_ left_open right_open
        max_results).results.Pairwise (fun a b => a.key < b.key) := by
  refine ⟨btree_rget_returns store start end_ left_open right_open max_results hdisjoint, ?_⟩
  have hall := merge_of_outputs_strict _ hsorted hdisjoint
  rw [btree_rget_results_eq, merged_stream_eq_merge store start end_ left_open right_open
    hdisjoint]
  split
  · exact hall.sublist (List.take_sublist _ _)
  · exact hall

/-- The scenario of two slices meets both hypotheses on the outputs of the slices. -/
theorem rget_strictly_ascending_witness :
    (∀ out ∈ slice_outputs store_ab (some 2) (some 5) false false,
        out.Pairwise (fun a b => a.key < b.key)) ∧
      (slice_outputs store_ab (some 2) (some 5) false false).Pairwise
        (fun o1 o2 => ∀ a ∈ o1, ∀ b ∈ o2, a.key ≠ b.key) ∧
      (btree_rget no_lock_failure store_ab (some 2) (some 5) false false 3).exit =
        exit_t.returned ∧
      (btree_rget no_lock_failure store_ab (some 2) (some 5) false false
        3).results.Pairwise (fun a b => a.key < b.key) :=
  ⟨by decide, by decide,
    rget_strictly_ascending store_ab (some 2) (some 5) false false 3 (by decide) (by decide)⟩

/-- Claim C4, as stated, fails on a store of two slices that both hold the key 1: the true
total of the closed range from 1 to 1 is 2, and the scan with that cap raises on the tie and
returns no sequence. -/
theorem rget_key_tie_stops_total_scan :
    total_in_range store_dup (some 1) (some 1) false false = 2 ∧
      (btree_rget no_lock_failure store_dup (some 1) (some 1) false false
        (total_in_range store_dup (some 1) (some 1) false false)).exit = exit_t.raised ∧
      ¬ ((btree_rget no_lock_failure store_dup (some 1) (some 1) false false
          (total_in_range store_dup (some 1) (some 1) false false)).exit = exit_t.returned ∧
        (btree_rget no_lock_failure store_dup (some 1) (some 1) false false
          (total_in_range store_dup (some 1) (some 1) false false)).results =
          merge_of_outputs (slice_outputs store_dup (some 1) (some 1) false false)) :=
  ⟨by decide, by decide, fun h => absurd h.1 (by decide)⟩

/-- Claim C4, amended: for every store and range in which no key occurs in the outputs of
two slices, `btree_rget` called with `max_results` equal to the true total number of
in-range items across all slices returns, and its result list is the complete merge of the
in-range outputs of all slices (also when that total is 0). -/
theorem rget_total_cap_eq_complete_merge {κ δ : Type} [LinearOrder κ]
    (store : btree_key_value_store_t κ δ) (start end_ : Option κ)
    (left_open right_open : Bool)
    (hdisjoint : (slice_outputs store start end_ left_open right_open).Pairwise
      (fun o1 o2 => ∀ a ∈ o1, ∀ b ∈ o2, a.key ≠ b.key)) :
    (btree_rget no_lock_failure store start end_ left_open right_open
        (total_in_range store start end_ left_open right_open)).exit = exit_t.returned ∧
      (btree_rget no_lock_failure store start end_ left_open right_open
        (total_in_range store start end_ left_open right_open)).results =
        merge_of_outputs (slice_outputs store start end_ left_open right_open) := by
  refine ⟨btree_rget_returns store start end_ left_open right_open _ hdisjoint, ?_⟩
  rw [btree_rget_results_eq, merged_stream_eq_merge store start end_ left_open right_open
    hdisjoint]
  split
  · apply List.take_of_length_le
    rw [length_merge_of_outputs, total_in_range]
  · rfl

/-- The scenario of two slices shares no key between the slices; its true total on the
closed range from 2 to 5 is 4. -/
theorem rget_total_cap_eq_complete_merge_witness :
    (slice_outputs store_ab (some 2) (some 5) false false).Pairwise
        (fun o1 o2 => ∀ a ∈ o1, ∀ b ∈ o2, a.key ≠ b.key) ∧
      total_in_range store_ab (some 2) (some 5) false false = 4 ∧
      (btree_rget no_lock_failure store_ab (some 2) (some 5) false false
        (total_in_range store_ab (some 2) (some 5) false false)).results.map
          (fun kv => kv.key) = [2, 3, 4, 5] ∧
      (btree_rget no_lock_failure store_ab (some 2) (some 5) false false
        (total_in_range store_ab (some 2) (some 5) false false)).exit = exit_t.returned ∧
      (btree_rget no_lock_failure store_ab (some 2) (some 5) false false
        (total_in_range store_ab (some 2) (some 5) false false)).results =
        merge_of_outputs (slice_outputs store_ab (some 2) (some 5) false false) :=
  ⟨by decide, by decide, by decide,
    rget_total_cap_eq_complete_merge store_ab (some 2) (some 5) false false (by decide)⟩

/-- Claim C5 fails on the code: with two slices and a lock failure at the first pull on the
second one, the exception leaves `btree_rget` with both slice iterators still in `ms` and
none of them deleted. -/
theorem rget_raise_skips_teardown :
    (btree_rget fail_cache_one store_ab (some 2) (some 5) false false 3).exit =
        exit_t.raised ∧
      (btree_rget fail_cache_one store_ab (some 2) (some 5) false false 3).ms = [0, 1] ∧
      (btree_rget fail_cache_one store_ab (some 2) (some 5) false false 3).deleted = [] ∧
      (btree_rget fail_cache_one store_ab (some 2) (some 5) false false
        3).iterator_heap.length = 2 := by
  decide

/-- Claim C6: on every normal return of `btree_rget`, whatever ended the drain loop, the
mergee list `ms` is empty and every slice iterator that was created, one per address below
the size of the iterator heap, has been deleted exactly once, nothing else being deleted. -/
theorem rget_return_deletes_each_iterator_once {κ δ : Type} [LinearOrder κ]
    (locks : lock_manager_t) (store : btree_key_value_store_t κ δ) (start end_ : Option κ)
    (left_open right_open : Bool) (max_results : Nat)
    (hret : (btree_rget locks store start end_ left_open right_open max_results).exit =
      exit_t.returned) :
    (btree_rget locks store start end_ left_open right_open max_results).ms = [] ∧
      (btree_rget locks store start end_ left_open right_open
        max_results).iterator_heap.length = store.n_slices ∧
      ∀ p, (btree_rget locks store start end_ left_open right_open max_results).deleted.count p =
        if p < (btree_rget locks store start end_ left_open right_open
          max_results).iterator_heap.length then 1 else 0 := by
  obtain ⟨hms, hdel⟩ :=
    btree_rget_torn_down locks store start end_ left_open right_open max_results hret
  have hlen : (btree_rget locks store start end_ left_open right_open
      max_results).iterator_heap.length = store.n_slices := by
    simp [btree_rget_iterator_heap, btree_key_value_store_t.n_slices]
  refine ⟨hms, hlen, ?_⟩
  intro p
  rw [hdel, hlen]
  split
  · rename_i hp
    apply List.count_eq_one_of_mem
    · exact List.nodup_reverse.mpr (List.nodup_range' _ _)
    · simpa [List.mem_range'_1, btree_key_value_store_t.n_slices] using hp
  · rename_i hp
    apply List.count_eq_zero_of_not_mem
    simpa [List.mem_range'_1, btree_key_value_store_t.n_slices] using hp

/-- A capped scan of the two slices returns after one item, the first slice having emitted
none. -/
theorem rget_return_deletes_each_iterator_once_witness :
    (btree_rget no_lock_failure store_ab (some 2) (some 5) false false 1).exit =
        exit_t.returned ∧
      (btree_rget no_lock_failure store_ab (some 2) (some 5) false false 1).ms = [] ∧
      (btree_rget no_lock_failure store_ab (some 2) (some 5) false false
        1).iterator_heap.length = store_ab.n_slices ∧
      ∀ p, (btree_rget no_lock_failure store_ab (some 2) (some 5) false false
          1).deleted.count p =
        if p < (btree_rget no_lock_failure store_ab (some 2) (some 5) false false
          1).iterator_heap.length then 1 else 0 :=
  ⟨by decide,
    rget_return_deletes_each_iterator_once no_lock_failure store_ab (some 2) (some 5) false
      false 1 (by decide)⟩

/-- Claim C7: for every lock manager, store, range and `max_results`, `btree_rget` constructs
exactly one read transactor per slice, on the cache of that slice, and exactly one slice
iterator per slice, given the transactor of that slice, the slice, and the `start`, `end`,
`left_open` and `right_open` of the caller unchanged; neither depends on `max_results`. -/
theorem rget_opens_one_transactor_per_slice {κ δ : Type} [LinearOrder κ]
    (locks : lock_manager_t) (store : btree_key_value_store_t κ δ) (start end_ : Option κ)
    (left_open right_open : Bool) (max_results : Nat) :
    (btree_rget locks store start end_ left_open right_open max_results).transactor_heap =
        store.slices.map (fun slice => (⟨slice.cache, access_t.rwi_read⟩ : transactor_t)) ∧
      (btree_rget locks store start end_ left_open right_open max_results).iterator_heap =
        store.slices.enum.map (fun p =>
          slice_keys_iterator_t.create locks p.1 p.2 start end_ left_open right_open) ∧
      (btree_rget locks store start end_ left_open right_open max_results).transactors =
        List.range store.n_slices ∧
      (btree_rget locks store start end_ left_open right_open
        max_results).transactor_heap.length = store.n_slices ∧
      (btree_rget locks store start end_ left_open right_open
        max_results).iterator_heap.length = store.n_slices ∧
      ∀ (s : Nat) (slice : btree_slice_t κ δ), store.slices[s]? = some slice →
        (btree_rget locks store start end_ left_open right_open
            max_results).transactor_heap[s]? = some ⟨slice.cache, access_t.rwi_read⟩ ∧
          ∃ it, (btree_rget locks store start end_ left_open right_open
              max_results).iterator_heap[s]? = some it ∧
            it.transactor = s ∧ it.slice = slice ∧ it.start = start ∧ it.end_ = end_ ∧
            it.left_open = left_open ∧ it.right_open = right_open := by
  have h1 : (btree_rget locks store start end_ left_open right_open
      max_results).transactor_heap =
      store.slices.map (fun slice => (⟨slice.cache, access_t.rwi_read⟩ : transactor_t)) := by
    simp only [btree_rget]
    split <;> simp [open_slices_transactor_heap]
  have h2 := btree_rget_iterator_heap locks store start end_ left_open right_open max_results
  have h3 : (btree_rget locks store start end_ left_open right_open max_results).transactors =
      List.range store.n_slices := by
    simp only [btree_rget]
    split <;>
      simp [open_slices_transactors, List.range_eq_range', btree_key_value_store_t.n_slices]
  refine ⟨h1, h2, h3, by simp [h1, btree_key_value_store_t.n_slices],
    by simp [h2, btree_key_value_store_t.n_slices], ?_⟩
  intro s slice hs
  rw [h1, h2]
  refine ⟨by simp [hs], ?_⟩
  refine ⟨slice_keys_iterator_t.create locks s slice start end_ left_open right_open, ?_,
    create_arguments locks s slice start end_ left_open right_open⟩
  simp [List.getElem?_enum, hs]

/-- Claim C8: `create_provider` returns the large variant exactly when `value->is_large()`
holds and the small variant otherwise; the large one is built from the value and the
transactor, the small one from the value alone, so that it is the same for every
transactor. -/
theorem create_provider_dispatch (small_ctor : btree_value → rget_small_value_provider_t)
    (large_ctor : btree_value → Nat → rget_large_value_provider_t)
    (value : btree_value) (transactor : Nat) :
    ((∃ p, rget_value_provider_t.create_provider small_ctor large_ctor value transactor =
        rget_value_provider_t.large p) ↔ value.is_large = true) ∧
      ((∃ p, rget_value_provider_t.create_provider small_ctor large_ctor value transactor =
        rget_value_provider_t.small p) ↔ value.is_large = false) ∧
      (value.is_large = true →
        rget_value_provider_t.create_provider small_ctor large_ctor value transactor =
          rget_value_provider_t.large (large_ctor value transactor)) ∧
      (value.is_large = false → ∀ other : Nat,
        rget_value_provider_t.create_provider small_ctor large_ctor value other =
          rget_value_provider_t.small (small_ctor value)) := by
  cases h : value.is_large <;> simp [rget_value_provider_t.create_provider, h]

/-- Claim C9: destroying an `rget_large_value_provider_t` calls `release()` exactly once on
its large-value handle when the handle is present, materialised or not, and calls no
`release()` when the handle is null; no other handle is released. -/
theorem destroy_releases_handle_once (p : rget_large_value_provider_t) (released : List Nat) :
    (∀ handle, p.large_value = some handle → p.destroy released = released ++ [handle]) ∧
      (p.large_value = none → p.destroy released = released) ∧
      ∀ handle, (p.destroy released).count handle =
        released.count handle + (if p.large_value = some handle then 1 else 0) := by
  cases h : p.large_value with
  | none => simp [rget_large_value_provider_t.destroy, h]
  | some held =>
    refine ⟨by simp [rget_large_value_provider_t.destroy, h], by simp, ?_⟩
    intro handle
    by_cases heq : held = handle
    · simp [rget_large_value_provider_t.destroy, h, heq]
    · simp [rget_large_value_provider_t.destroy, h, heq, List.count_singleton]

end Rget
